import Mathlib

/-!
Verification of the blindspot package manager (`bspm`) core against its
specification.  The Rust sources under `src/bspm/` are shallowly embedded:
pure functions become Lean functions, stateful code is explicit state
passing over an association-list filesystem model, fallible code returns
`Except`, and external collaborators (HTTP, the install pipeline, wall
clock) are oracle parameters.
-/

set_option maxHeartbeats 1000000

deriving instance DecidableEq for Except

namespace Blindspot

/-! ## Generic association-list maps

Both the terminal UI's `HashMap<String, Bar>` and the filesystem are
modelled as association lists with at-most-one binding per key in every
reachable state. -/

def aget {α : Type} (l : List (String × α)) (k : String) : Option α :=
  (l.find? (fun e => e.1 == k)).map Prod.snd

def aset {α : Type} (l : List (String × α)) (k : String) (v : α) : List (String × α) :=
  if (l.find? (fun e => e.1 == k)).isSome then
    l.map (fun e => if e.1 == k then (k, v) else e)
  else
    l ++ [(k, v)]

def aupd {α : Type} (l : List (String × α)) (k : String) (f : α → α) : List (String × α) :=
  l.map (fun e => if e.1 == k then (e.1, f e.2) else e)

def adel {α : Type} (l : List (String × α)) (k : String) : List (String × α) :=
  l.filter (fun e => e.1 != k)

/-! ## Compression and archive kinds (`src/bspm/installer.rs`) -/

inductive Compression where
  | None
  | Gzip
  | Bzip2
  | Xz
deriving Repr, DecidableEq

/-- Embeds `impl FromStr for Compression` (installer.rs:308-319), including the
copy-paste that sends every recognized non-"none" string to `Gzip`. -/
def Compression.from_str (s : String) : Except String Compression :=
  if s = "gzip" then Except.ok Compression.Gzip
  else if s = "bzip2" then Except.ok Compression.Gzip
  else if s = "xz" then Except.ok Compression.Gzip
  else if s = "none" then Except.ok Compression.None
  else Except.error ("Invalid compression: " ++ s)

inductive Archived where
  | None
  | Tar
deriving Repr, DecidableEq

/-- Embeds `impl FromStr for Archived` (installer.rs:274-283). -/
def Archived.from_str (s : String) : Except String Archived :=
  if s = "tar" then Except.ok Archived.Tar
  else if s = "none" then Except.ok Archived.None
  else Except.error ("Invalid archive: " ++ s)

/-! ## Filesystem model

A file has content bytes and a permission mode (as a `Nat`, e.g. `0o750`).
The filesystem is a map from paths to files. -/

abbrev Path := String

structure FileData where
  content : List Nat
  mode : Nat
deriving Repr, DecidableEq

abbrev FS := List (Path × FileData)

abbrev FS.lookup (fs : FS) (p : Path) : Option FileData := aget fs p

abbrev FS.set (fs : FS) (p : Path) (f : FileData) : FS := aset fs p f

/-- Embeds `async_std::fs::remove_file`: errors when the file does not exist. -/
def FS.removeFile (fs : FS) (p : Path) : Except String FS :=
  match FS.lookup fs p with
  | Option.some _ => Except.ok (adel fs p)
  | Option.none => Except.error "remove_file: No such file"

/-- Owner permission triple of a mode (bits 8-6). -/
def modeOwner (m : Nat) : Nat := m / 64 % 8

/-- Group permission triple of a mode (bits 5-3). -/
def modeGroup (m : Nat) : Nat := m / 8 % 8

/-- World permission triple of a mode (bits 2-0). -/
def modeWorld (m : Nat) : Nat := m % 8

/-- Whether a mode grants group write (bit value 2 of the group triple). -/
def modeGroupWrite (m : Nat) : Bool := m / 16 % 2 = 1

/-- Embeds `move_exe` (installer.rs:321-328): copy `src` over `dest`, delete
`src`, then set the destination's permission bits to `0o750`. -/
def move_exe (fs : FS) (src dest : Path) : Except String FS :=
  match FS.lookup fs src with
  | Option.none => Except.error "copy: No such file"
  | Option.some f =>
    let fs1 := FS.set fs dest f
    match FS.removeFile fs1 src with
    | Except.error e => Except.error e
    | Except.ok fs2 =>
      match FS.lookup fs2 dest with
      | Option.none => Except.error "metadata: No such file"
      | Option.some g => Except.ok (FS.set fs2 dest { g with mode := 0o750 })

/-! ## Installer state (`src/bspm/installer.rs`) -/

structure Installer where
  url : String
  path : Path
  compression : Option Compression
  archive : Option Archived
  backup : Option Path
deriving Repr, DecidableEq

/-- Embeds `Installer::revert` (installer.rs:60-72): with no backup it only
notifies and returns `Ok(())`; with a backup it moves the backup file over
the destination and clears `backup` on success. -/
def Installer.revert (ins : Installer) (fs : FS) : Except String (Installer × FS) :=
  match ins.backup with
  | Option.none => Except.ok (ins, fs)
  | Option.some src =>
    match move_exe fs src ins.path with
    | Except.error e => Except.error e
    | Except.ok fs2 => Except.ok ({ ins with backup := Option.none }, fs2)

/-- Embeds `Installer::uninstall` (installer.rs:74-81): delete the backup when
present, then delete the installed file. -/
def Installer.uninstall (ins : Installer) (fs : FS) : Except String FS :=
  match ins.backup with
  | Option.none => FS.removeFile fs ins.path
  | Option.some b =>
    match FS.removeFile fs b with
    | Except.error e => Except.error e
    | Except.ok fs2 => FS.removeFile fs2 ins.path

/-! ## Interactive prompts (`src/bspm/ui.rs`)

`Context::ask` delivers one line of standard input per call; a prompt
session is modelled by the list of lines the user will type.  `ask_number`
loops until a line trims and parses to an integer in `[min, max)`. -/

/-- Rust `str::trim` (whitespace here restricted to the ASCII whitespace
characters that terminal input can contain). -/
def trimWs (s : String) : String :=
  String.mk (((s.data.dropWhile Char.isWhitespace).reverse.dropWhile
    Char.isWhitespace).reverse)

/-- Rust `str::parse::<usize>`: an optional leading `+`, then one or more
digits; errors on anything else and on overflow past `usize::MAX`. -/
def parseUsize (s : String) : Option Nat :=
  let cs := match s.data with
    | '+' :: rest => rest
    | cs => cs
  if cs.isEmpty then Option.none
  else if cs.all Char.isDigit then
    let v := cs.foldl (fun a c => a * 10 + (c.toNat - 48)) 0
    if v < 2 ^ 64 then Option.some v else Option.none
  else Option.none

/-- Embeds `Context::ask_number` (ui.rs:213-224) on the list of input lines the
user types: returns the first line that trims and parses into `[mn, mx)`,
or `none` ("Failed to receive from STDIN") when input is exhausted. -/
def Context.ask_number (mn mx : Nat) (inputs : List String) : Option Nat :=
  match inputs with
  | [] => Option.none
  | line :: rest =>
    match parseUsize (trimWs line) with
    | Option.some x =>
      if mn ≤ x ∧ x < mx then Option.some x else Context.ask_number mn mx rest
    | Option.none => Context.ask_number mn mx rest

/-- The value a single input line contributes to `ask_number`, used to
state that `ask_number` accepts exactly the first valid line. -/
def inputValue (mn mx : Nat) (line : String) : Option Nat :=
  match parseUsize (trimWs line) with
  | Option.some x => if mn ≤ x ∧ x < mx then Option.some x else Option.none
  | Option.none => Option.none

/-! ## Tar member extraction (`src/bspm/installer.rs`) -/

structure TarEntry where
  path : Path
  size : Nat
  content : List Nat
deriving Repr, DecidableEq

/-- Embeds `Archived::install_tar` (installer.rs:222-267): list the entries
(producing the count `file_index`), ask for an index in
`[0, file_index)`, then stream the chosen entry to `dest`, created with
mode `0o750`. -/
def Archived.install_tar (entries : List TarEntry) (inputs : List String)
    (fs : FS) (dest : Path) : Except String FS :=
  match Context.ask_number 0 entries.length inputs with
  | Option.none => Except.error "Failed to receive from STDIN"
  | Option.some pick =>
    match entries.get? pick with
    | Option.none => Except.ok fs
    | Option.some e => Except.ok (FS.set fs dest { content := e.content, mode := 0o750 })

/-! ## Progress bars (`src/bspm/ui.rs`)

`UI::mainloop` keeps `bars: HashMap<String, Bar>`.  On
`Message::Progress(p)` from sender `context` it does
`bars.get_mut(&context)` → `pbar.replace(p.0)`, and otherwise
`bars.insert(p.2, get_bar(p.0, p.1, t_x, &p.2))` keyed by the label. -/

structure Bar where
  current : Nat
  total : Nat
  width : Nat
deriving Repr, DecidableEq

/-- Embeds `progress_string::Bar::replace`: overwrite the current value. -/
def Bar.replace (b : Bar) (c : Nat) : Bar := { b with current := c }

/-- Embeds `get_bar` (ui.rs:173-184): build a fresh bar whose width adapts to the
terminal width minus the (truncated) label length. -/
def get_bar (current total max_width : Nat) (msg : String) : Bar :=
  { current := current
    total := total
    width := max_width - min (min msg.length 64) (max_width - 30) - 30 }

abbrev Bars := List (String × Bar)

/-- The `Message::Progress` arm of `UI::mainloop` (ui.rs:109-116):
look up by the sender's `context` name; on a hit replace the bar's current
value in place, on a miss insert a fresh bar keyed by the label `p.2`. -/
def handle_progress (bars : Bars) (context : String) (current total : Nat)
    (label : String) (t_x : Nat) : Bars :=
  match aget bars context with
  | Option.some _ => aupd bars context (fun b => b.replace current)
  | Option.none => aset bars label (get_bar current total t_x label)

/-- Modelled from the spec: the same Progress arm as the spec describes
it, with the existing-bar lookup keyed by the message label rather than
by the sender's context name. -/
def handle_progress_speckeyed (bars : Bars) (_context : String) (current total : Nat)
    (label : String) (t_x : Nat) : Bars :=
  match aget bars label with
  | Option.some _ => aupd bars label (fun b => b.replace current)
  | Option.none => aset bars label (get_bar current total t_x label)

/-! ## Download progress polling (`src/bspm/installer.rs`)

`Installer::download` spawns a poller that each 20ms tick reads
`metrics.download_progress()`, emits
`ctx.progress(t / 1000, T / 1000, url)`, and breaks once `t == T`.
The observed samples are modelled as the list of metric readings at
successive ticks. -/

def poll_progress (samples : List (Nat × Nat)) : List (Nat × Nat) :=
  match samples with
  | [] => []
  | (t, T) :: rest =>
    (t / 1000, T / 1000) :: (if t = T then [] else poll_progress rest)

/-- Index of the first sample with `transferred == total`. -/
def firstEq : List (Nat × Nat) → Option Nat
  | [] => Option.none
  | (t, T) :: rest => if t = T then Option.some 0 else (firstEq rest).map (· + 1)

/-! ## Packages (`src/bspm/package.rs`)

`DateTime<Utc>` timestamps are modelled as `Nat`. -/

inductive Release where
  | Version (tag : String)
  | Dated (timestamp : Nat)
deriving Repr, DecidableEq

structure Package where
  name : String
  installer : Installer
  release : Option Release
  last_update : Option Nat
  github : Option String
deriving Repr, DecidableEq

/-- Embeds `impl PartialEq for Package` (package.rs:129-133): by name only. -/
def Package.eq (a b : Package) : Bool := a.name == b.name

/-- A GitHub latest-release document, as consumed by
`Package::github_tag_name` / `Package::github_dl_url`: `Option.none`
fields model JSON values of the wrong shape. -/
structure GhAsset where
  name : String
  size : Nat
  browser_download_url : Option String

structure GhRelease where
  tag_name : Option String
  assets : List GhAsset

/-- Embeds `Package::github_tag_name` (package.rs:73-80). -/
def Package.github_tag_name (rel : GhRelease) : Except String String :=
  match rel.tag_name with
  | Option.some v => Except.ok v
  | Option.none => Except.error "No browser download url in asset"

/-- Embeds `Package::github_dl_url` (package.rs:82-110): list the assets, ask
for an index in `[0, assets.len())`, and return that asset's browser
download URL. -/
def Package.github_dl_url (rel : GhRelease) (inputs : List String) : Except String String :=
  match Context.ask_number 0 rel.assets.length inputs with
  | Option.none => Except.error "Failed to receive from STDIN"
  | Option.some pick =>
    match rel.assets.get? pick with
    | Option.none => Except.error "index out of bounds"
    | Option.some a =>
      match a.browser_download_url with
      | Option.some v => Except.ok v
      | Option.none => Except.error "No browser download url in asset"

/-- Side effects of the install pipeline that the frame claims are
about. -/
inductive Effect where
  | installRun
deriving Repr, DecidableEq

/-- External collaborators of `Package::update`: the GitHub
latest-release endpoint, the install pipeline (`Package::install`, which
performs the download and may rewrite url/release/github of the package
it runs on), the wall clock, and the user's input lines. -/
structure World where
  latest : String → Except String GhRelease
  installRun : Package → Except String Package
  now : Nat
  inputs : List String

/-- Embeds `Package::update` (package.rs:35-71), with effect trace.  A package
without a GitHub origin reinstalls from its URL and stamps `last_update`;
a GitHub package whose recorded release is not a `Version` fails; when
the latest tag equals the recorded tag the clone is returned unchanged
with no install; otherwise the asset URL is resolved, the install
pipeline runs, and release/`last_update` are stamped. -/
def Package.update (w : World) (pkg : Package) : Except String (Package × List Effect) :=
  match pkg.github with
  | Option.none =>
    match w.installRun pkg with
    | Except.error e => Except.error e
    | Except.ok p2 => Except.ok ({ p2 with last_update := Option.some w.now }, [Effect.installRun])
  | Option.some repo =>
    match pkg.release with
    | Option.some (Release.Version current) =>
      match w.latest repo with
      | Except.error e => Except.error e
      | Except.ok rel =>
        match Package.github_tag_name rel with
        | Except.error e => Except.error e
        | Except.ok latest =>
          if latest = current then Except.ok (pkg, [])
          else
            match Package.github_dl_url rel w.inputs with
            | Except.error e => Except.error e
            | Except.ok url =>
              match w.installRun { pkg with installer := { pkg.installer with url := url } } with
              | Except.error e => Except.error e
              | Except.ok p2 =>
                Except.ok ({ p2 with
                              release := Option.some (Release.Version latest)
                              last_update := Option.some w.now },
                           [Effect.installRun])
    | _ => Except.error "Corrupted package (please reinstall)"

/-! ## Registry orchestration (`src/bspm/mod.rs`) -/

/-- The worker-selection test of `BSPM::update` (mod.rs:162): a package
is skipped iff the requested set is non-empty and does not contain its
name. -/
def selected (requested : List String) (pkg : Package) : Bool :=
  !(!(requested.contains pkg.name) && !requested.isEmpty)

/-- The merge step of `BSPM::update` (mod.rs:184-190) for one successful
worker result: scan for the first entry equal to `updated` (name
equality), remove it and push `updated` at the end of the list. -/
def merge_updated (packages : List Package) (updated : Package) : List Package :=
  match packages with
  | [] => []
  | p :: rest =>
    if Package.eq p updated then rest ++ [updated]
    else p :: merge_updated rest updated

/-- The join-and-merge loop of `BSPM::update` (mod.rs:179-191): failed
workers are skipped, successful ones are merged in order. -/
def merge_results (packages : List Package) (results : List (Except String Package)) :
    List Package :=
  results.foldl
    (fun acc r =>
      match r with
      | Except.ok u => merge_updated acc u
      | Except.error _ => acc)
    packages

/-- Embeds `BSPM::update` (mod.rs:152-195) on the package list: an empty
registry is returned unchanged; otherwise one worker runs per selected
package and the results are merged. -/
def BSPM.update (packages : List Package) (requested : List String)
    (worker : Package → Except String Package) : List Package :=
  if packages.isEmpty then packages
  else merge_results packages ((packages.filter (selected requested)).map worker)

/-- Registry lookup by package name (first match). -/
def findByName (packages : List Package) (n : String) : Option Package :=
  packages.find? (fun p => p.name == n)

/-- Embeds `BSPM::delete` (mod.rs:116-133): find the first package with the
given name, uninstall it, drop it from the list and write the config
(tracked by the returned `Bool`); when no name matches, notify and return
`Ok` with nothing changed. -/
def BSPM.delete (packages : List Package) (name : String) (fs : FS) :
    Except String (List Package × FS × Bool) :=
  match packages with
  | [] => Except.ok ([], fs, false)
  | p :: rest =>
    if p.name = name then
      match Installer.uninstall p.installer fs with
      | Except.error e => Except.error e
      | Except.ok fs2 => Except.ok (rest, fs2, true)
    else
      match BSPM.delete rest name fs with
      | Except.error e => Except.error e
      | Except.ok (rest2, fs2, w) => Except.ok (p :: rest2, fs2, w)

/-- Embeds `BSPM::revert` (mod.rs:135-150): find the first package with the
given name, revert its installer in place and write the config; when no
name matches, notify and return `Ok` with nothing changed. -/
def BSPM.revert (packages : List Package) (name : String) (fs : FS) :
    Except String (List Package × FS × Bool) :=
  match packages with
  | [] => Except.ok ([], fs, false)
  | p :: rest =>
    if p.name = name then
      match Installer.revert p.installer fs with
      | Except.error e => Except.error e
      | Except.ok (ins2, fs2) => Except.ok ({ p with installer := ins2 } :: rest, fs2, true)
    else
      match BSPM.revert rest name fs with
      | Except.error e => Except.error e
      | Except.ok (rest2, fs2, w) => Except.ok (p :: rest2, fs2, w)

/-! ## Concrete fixtures (spec §8 bulk-update scenario) -/

/-- Plain-URL package `X` whose update worker will fail. -/
def pkgX : Package :=
  ⟨"X", ⟨"http://e/x", "/bin/X", Option.none, Option.none, Option.none⟩,
    Option.none, Option.none, Option.none⟩

/-- GitHub-origin package `Y` whose update worker will succeed. -/
def pkgY : Package :=
  ⟨"Y", ⟨"http://e/y", "/bin/Y", Option.none, Option.none, Option.none⟩,
    Option.some (Release.Version "v1"), Option.some 1, Option.some "o/r"⟩

/-- A bulk-update worker failing on every package but `Y`. -/
def workerW : Package → Except String Package :=
  fun p =>
    if p.name == "Y" then Except.ok { p with last_update := Option.some 9 }
    else Except.error "boom"

/-! ## Association-list lemmas -/

theorem find?_map_rep {α : Type} (l : List (String × α)) (k : String) (v : α) :
    (l.map (fun e => if e.1 == k then (k, v) else e)).find? (fun e => e.1 == k) =
      (l.find? (fun e => e.1 == k)).map (fun _ => (k, v)) := by
  induction l with
  | nil => rfl
  | cons e t ih =>
    by_cases he : e.1 == k
    · simp [List.find?, he]
    · simp only [List.map_cons, List.find?]
      rw [if_neg (by simp [he])]
      simp only [he]
      exact ih

theorem find?_map_upd {α : Type} (l : List (String × α)) (k : String) (f : α → α) :
    (aupd l k f).find? (fun e => e.1 == k) =
      (l.find? (fun e => e.1 == k)).map (fun e => (e.1, f e.2)) := by
  unfold aupd
  induction l with
  | nil => rfl
  | cons e t ih =>
    by_cases he : e.1 == k
    · simp [List.find?, he]
    · simp only [List.map_cons, List.find?]
      rw [if_neg (by simp [he])]
      simp only [he]
      exact ih

theorem aget_aset_self {α : Type} (l : List (String × α)) (k : String) (v : α) :
    aget (aset l k v) k = Option.some v := by
  unfold aget aset
  cases hf : l.find? (fun e => e.1 == k) with
  | some e =>
    rw [if_pos (by simp [hf])]
    rw [find?_map_rep, hf]
    rfl
  | none =>
    rw [if_neg (by simp [hf])]
    rw [List.find?_append, hf]
    simp [List.find?]

theorem aget_aupd_self {α : Type} (l : List (String × α)) (k : String) (f : α → α) (a : α)
    (h : aget l k = Option.some a) : aget (aupd l k f) k = Option.some (f a) := by
  unfold aget at h ⊢
  cases hf : l.find? (fun e => e.1 == k) with
  | none => rw [hf] at h; simp at h
  | some e =>
    rw [hf] at h
    simp at h
    rw [find?_map_upd, hf]
    simp [h]

theorem keys_aupd {α : Type} (l : List (String × α)) (k : String) (f : α → α) :
    (aupd l k f).map Prod.fst = l.map Prod.fst := by
  unfold aupd
  rw [List.map_map]
  congr 1
  funext e
  by_cases he : e.1 == k <;> simp [Function.comp, he]

theorem keys_aset_mem {α : Type} (l : List (String × α)) (k : String) (v : α)
    (h : (l.find? (fun e => e.1 == k)).isSome) :
    (aset l k v).map Prod.fst = l.map Prod.fst := by
  unfold aset
  rw [if_pos h, List.map_map]
  congr 1
  funext e
  by_cases he : e.1 == k
  · simp [Function.comp, he]
    exact (beq_iff_eq.mp he).symm
  · simp [Function.comp, he]

theorem keys_aset_nomem {α : Type} (l : List (String × α)) (k : String) (v : α)
    (h : l.find? (fun e => e.1 == k) = Option.none) :
    (aset l k v).map Prod.fst = l.map Prod.fst ++ [k] := by
  unfold aset
  rw [if_neg (by simp [h])]
  simp

theorem nodup_keys_aset {α : Type} (l : List (String × α)) (k : String) (v : α)
    (h : (l.map Prod.fst).Nodup) : ((aset l k v).map Prod.fst).Nodup := by
  cases hf : l.find? (fun e => e.1 == k) with
  | some e =>
    rw [keys_aset_mem l k v (by simp [hf])]
    exact h
  | none =>
    rw [keys_aset_nomem l k v hf]
    have hk : k ∉ l.map Prod.fst := by
      intro hk
      obtain ⟨e, he, hke⟩ := List.mem_map.mp hk
      have := List.find?_eq_none.mp hf e he
      simp [hke] at this
    simp [List.nodup_append, h, hk]

/-! ## `ask_number` lemmas -/

theorem ask_number_findSome (mn mx : Nat) (inputs : List String) :
    Context.ask_number mn mx inputs = inputs.findSome? (inputValue mn mx) := by
  induction inputs with
  | nil => rfl
  | cons line rest ih =>
    rw [List.findSome?_cons]
    unfold Context.ask_number inputValue
    cases hp : parseUsize (trimWs line) with
    | none => simpa using ih
    | some x =>
      by_cases hx : mn ≤ x ∧ x < mx
      · simp [hx]
      · simpa [hx] using ih

theorem ask_number_bounds (mn mx : Nat) (inputs : List String) (x : Nat)
    (h : Context.ask_number mn mx inputs = Option.some x) : mn ≤ x ∧ x < mx := by
  induction inputs with
  | nil => simp [Context.ask_number] at h
  | cons line rest ih =>
    cases hp : parseUsize (trimWs line) with
    | none =>
      simp only [Context.ask_number, hp] at h
      exact ih h
    | some y =>
      simp only [Context.ask_number, hp] at h
      by_cases hy : mn ≤ y ∧ y < mx
      · rw [if_pos hy] at h
        cases h
        exact hy
      · rw [if_neg hy] at h
        exact ih h

theorem ask_number_zero (inputs : List String) :
    Context.ask_number 0 0 inputs = Option.none := by
  cases h : Context.ask_number 0 0 inputs with
  | none => rfl
  | some x => exact absurd (ask_number_bounds 0 0 inputs x h).2 (Nat.not_lt_zero x)

/-! ## Claim theorems -/

/-- C2: `Compression::from_str` maps each of "gzip", "bzip2" and "xz" to
`Ok(Gzip)`, maps "none" to `Ok(Compression::None)`, and returns `Err` on
every other string. -/
theorem compression_from_str_spec (s : String) :
    ((s = "gzip" ∨ s = "bzip2" ∨ s = "xz") →
      Compression.from_str s = Except.ok Compression.Gzip) ∧
    (s = "none" → Compression.from_str s = Except.ok Compression.None) ∧
    (s ≠ "gzip" → s ≠ "bzip2" → s ≠ "xz" → s ≠ "none" →
      Compression.from_str s = Except.error ("Invalid compression: " ++ s)) := by
  refine ⟨?_, ?_, ?_⟩
  · rintro (rfl | rfl | rfl) <;> rfl
  · rintro rfl
    rfl
  · intro h1 h2 h3 h4
    simp [Compression.from_str, h1, h2, h3, h4]

/-- Witness for C2 at the inputs "bzip2", "none" and "zstd". -/
theorem compression_from_str_spec_witness :
    Compression.from_str "bzip2" = Except.ok Compression.Gzip ∧
    Compression.from_str "none" = Except.ok Compression.None ∧
    Compression.from_str "zstd" = Except.error ("Invalid compression: " ++ "zstd") :=
  ⟨(compression_from_str_spec "bzip2").1 (Or.inr (Or.inl rfl)),
   (compression_from_str_spec "none").2.1 rfl,
   (compression_from_str_spec "zstd").2.2 (by decide) (by decide) (by decide) (by decide)⟩

/-- C7: `ask_number(min, max, ..)` returns `Ok(x)` only with
`min ≤ x < max`, and it accepts exactly the first input line whose
trimmed text parses to an integer in `[min, max)`, re-prompting on every
earlier line (`findSome?` over the unbounded input stream: no retry
limit). -/
theorem ask_number_spec (mn mx : Nat) (inputs : List String) :
    Context.ask_number mn mx inputs = inputs.findSome? (inputValue mn mx) ∧
    (∀ x, Context.ask_number mn mx inputs = Option.some x → mn ≤ x ∧ x < mx) :=
  ⟨ask_number_findSome mn mx inputs,
   fun x h => ask_number_bounds mn mx inputs x h⟩

/-- Witness for C7: the invalid lines "abc" and " 12 " are re-prompted,
" 7 " is accepted, and the bound holds. -/
theorem ask_number_spec_witness :
    Context.ask_number 2 9 ["abc", " 12 ", " 7 "] = Option.some 7 ∧ 2 ≤ 7 ∧ 7 < 9 :=
  ⟨by decide, (ask_number_spec 2 9 ["abc", " 12 ", " 7 "]).2 7 (by decide)⟩

/-- C8: for a tar container with zero entries the member pick calls
`ask_number(0, 0, ..)`; no integer satisfies `0 ≤ x < 0`, so the prompt
loop accepts no input line whatsoever, and the install errors only when
the input stream is exhausted. -/
theorem tar_empty_pick_unsat :
    (∀ inputs : List String, Context.ask_number 0 0 inputs = Option.none) ∧
    (∀ (inputs : List String) (fs : FS) (dest : Path),
      Archived.install_tar [] inputs fs dest =
        Except.error "Failed to receive from STDIN") := by
  constructor
  · exact ask_number_zero
  · intro inputs fs dest
    simp [Archived.install_tar, ask_number_zero]

/-- C3: `Installer::revert` with a pending backup `b` moves the file at
`b` back over the destination and clears `backup` on success; with no
pending backup it returns `Ok` and performs no file operation. -/
theorem installer_revert_spec (ins : Installer) (fs : FS) :
    (ins.backup = Option.none → Installer.revert ins fs = Except.ok (ins, fs)) ∧
    (∀ b, ins.backup = Option.some b →
      Installer.revert ins fs =
        (move_exe fs b ins.path).map
          (fun fs2 => ({ ins with backup := Option.none }, fs2))) := by
  constructor
  · intro h
    simp [Installer.revert, h]
  · intro b h
    simp only [Installer.revert, h]
    cases move_exe fs b ins.path <;> simp [Except.map]

/-- Witness for C3: a no-backup revert is a no-op, and a pending backup
is moved over the destination with `backup` cleared. -/
theorem installer_revert_spec_witness :
    Installer.revert ⟨"u", "/bin/x", Option.none, Option.none, Option.none⟩ [] =
      Except.ok (⟨"u", "/bin/x", Option.none, Option.none, Option.none⟩, []) ∧
    Installer.revert ⟨"u", "/bin/x", Option.none, Option.none, Option.some "/data/x"⟩
        [("/data/x", ⟨[1, 2], 420⟩)] =
      (move_exe [("/data/x", ⟨[1, 2], 420⟩)] "/data/x" "/bin/x").map
        (fun fs2 => (⟨"u", "/bin/x", Option.none, Option.none, Option.none⟩, fs2)) :=
  ⟨(installer_revert_spec _ _).1 rfl,
   (installer_revert_spec _ _).2 "/data/x" rfl⟩

/-- C10: when no package in the registry has the requested name, both
`BSPM::delete` and `BSPM::revert` return `Ok`, leave the package list
unchanged, touch no file, and write no config. -/
theorem missing_package_noop (packages : List Package) (name : String) (fs : FS)
    (h : ∀ p ∈ packages, p.name ≠ name) :
    BSPM.delete packages name fs = Except.ok (packages, fs, false) ∧
    BSPM.revert packages name fs = Except.ok (packages, fs, false) := by
  induction packages with
  | nil => exact ⟨rfl, rfl⟩
  | cons p rest ih =>
    have hp : p.name ≠ name := h p (List.mem_cons_self p rest)
    have hrest := ih (fun q hq => h q (List.mem_cons_of_mem p hq))
    constructor
    · simp [BSPM.delete, hp, hrest.1]
    · simp [BSPM.revert, hp, hrest.2]

/-- Witness for C10 on a one-package registry and a name it lacks. -/
theorem missing_package_noop_witness :
    BSPM.delete
        [⟨"x", ⟨"u", "/bin/x", Option.none, Option.none, Option.none⟩,
          Option.none, Option.none, Option.none⟩] "nope" [] =
      Except.ok
        ([⟨"x", ⟨"u", "/bin/x", Option.none, Option.none, Option.none⟩,
           Option.none, Option.none, Option.none⟩], [], false) ∧
    BSPM.revert
        [⟨"x", ⟨"u", "/bin/x", Option.none, Option.none, Option.none⟩,
          Option.none, Option.none, Option.none⟩] "nope" [] =
      Except.ok
        ([⟨"x", ⟨"u", "/bin/x", Option.none, Option.none, Option.none⟩,
           Option.none, Option.none, Option.none⟩], [], false) :=
  missing_package_noop _ "nope" [] (by decide)

/-- C1 counterexample: with an existing bar keyed by the label "L" and a
Progress message from sender context "C" carrying label "L", the claimed
behaviour (update the existing bar's current value in place) differs from
the code, which misses on `bars.get_mut("C")` and re-creates the bar:
total and width are refreshed from the message, not kept. -/
theorem progress_bar_keying_counterexample :
    aget (handle_progress [("L", ⟨5, 100, 40⟩)] "C" 7 200 "L" 100) "L" =
      Option.some ⟨7, 200, 69⟩ ∧
    aget (handle_progress_speckeyed [("L", ⟨5, 100, 40⟩)] "C" 7 200 "L" 100) "L" =
      Option.some ⟨7, 100, 40⟩ ∧
    handle_progress [("L", ⟨5, 100, 40⟩)] "C" 7 200 "L" 100 ≠
      handle_progress_speckeyed [("L", ⟨5, 100, 40⟩)] "C" 7 200 "L" 100 := by
  decide

/-- C1 (amended): the mainloop looks an existing bar up by the sender's
context name, not by the label.  On a miss it inserts a freshly built bar
keyed by the label, overwriting any previous bar under that label — so at
most one bar per distinct label still holds — and on a hit it updates the
context-keyed bar's current value in place. -/
theorem progress_bar_per_label (bars : Bars) (context label : String)
    (current total t_x : Nat)
    (hu : (bars.map Prod.fst).Nodup) :
    ((handle_progress bars context current total label t_x).map Prod.fst).Nodup ∧
    (aget bars context = Option.none →
      aget (handle_progress bars context current total label t_x) label =
        Option.some (get_bar current total t_x label)) ∧
    (∀ b, aget bars context = Option.some b →
      aget (handle_progress bars context current total label t_x) context =
        Option.some (b.replace current)) := by
  refine ⟨?_, ?_, ?_⟩
  · cases hc : aget bars context with
    | none =>
      simp only [handle_progress, hc]
      exact nodup_keys_aset bars label _ hu
    | some b =>
      simp only [handle_progress, hc]
      rw [keys_aupd]
      exact hu
  · intro hc
    simp only [handle_progress, hc]
    exact aget_aset_self bars label _
  · intro b hc
    simp only [handle_progress, hc]
    exact aget_aupd_self bars context _ b hc

/-- Witness for the amended C1 at a concrete bar map. -/
theorem progress_bar_per_label_witness :
    aget (handle_progress [("L", ⟨5, 100, 40⟩)] "C" 7 200 "L" 100) "L" =
      Option.some (get_bar 7 200 100 "L") :=
  (progress_bar_per_label [("L", ⟨5, 100, 40⟩)] "C" "L" 7 200 100 (by decide)).2.1
    (by decide)

/-- Number of samples the poll loop consumes: up to and including the
first with `t = T`, the whole observation window otherwise. -/
def pollLen (samples : List (Nat × Nat)) : Nat :=
  match firstEq samples with
  | Option.some k => k + 1
  | Option.none => samples.length

theorem pollLen_cons (t T : Nat) (rest : List (Nat × Nat)) :
    pollLen ((t, T) :: rest) = if t = T then 1 else pollLen rest + 1 := by
  by_cases h : t = T
  · simp [pollLen, firstEq, h]
  · simp only [pollLen, firstEq, if_neg h]
    cases hf : firstEq rest with
    | some k => simp [hf]
    | none => simp [hf]

theorem pollLen_eq_some (samples : List (Nat × Nat)) (k : Nat)
    (h : firstEq samples = Option.some k) : pollLen samples = k + 1 := by
  unfold pollLen
  rw [h]

theorem pollLen_eq_none (samples : List (Nat × Nat))
    (h : firstEq samples = Option.none) : pollLen samples = samples.length := by
  unfold pollLen
  rw [h]

/-- Structural form of the poll loop: it emits the scaled samples of the
prefix up to and including the first sample with `t = T` (the whole list
when no sample reaches it within the observation window). -/
theorem poll_progress_take (samples : List (Nat × Nat)) :
    poll_progress samples =
      (samples.take (pollLen samples)).map (fun s => (s.1 / 1000, s.2 / 1000)) := by
  induction samples with
  | nil => rfl
  | cons s rest ih =>
    obtain ⟨t, T⟩ := s
    rw [pollLen_cons]
    by_cases h : t = T
    · simp [poll_progress, h]
    · rw [if_neg h]
      simp only [poll_progress, if_neg h, List.take_succ_cons, List.map_cons, ih]

/-- C5: each emitted Progress message carries
`(transferred / 1000, total / 1000)`; the poller emits exactly the
samples up to and including the first with `transferred == total` and
stops there; and a non-decreasing byte counter (what the transfer metric
reports) yields a non-decreasing `current` sequence. -/
theorem download_progress_spec (samples : List (Nat × Nat)) :
    (∀ k, firstEq samples = Option.some k →
      poll_progress samples =
        (samples.take (k + 1)).map (fun s => (s.1 / 1000, s.2 / 1000))) ∧
    (firstEq samples = Option.none →
      poll_progress samples = samples.map (fun s => (s.1 / 1000, s.2 / 1000))) ∧
    (List.Chain' (· ≤ ·) (samples.map Prod.fst) →
      List.Chain' (· ≤ ·) ((poll_progress samples).map Prod.fst)) := by
  refine ⟨?_, ?_, ?_⟩
  · intro k hk
    have h := poll_progress_take samples
    rw [pollLen_eq_some samples k hk] at h
    exact h
  · intro hk
    have h := poll_progress_take samples
    rw [pollLen_eq_none samples hk] at h
    simpa using h
  · intro hmono
    rw [poll_progress_take samples]
    have h1 : ((samples.take (pollLen samples)).map
        (fun s => (s.1 / 1000, s.2 / 1000))).map Prod.fst =
        ((samples.map Prod.fst).take (pollLen samples)).map (fun x => x / 1000) := by
      rw [List.map_map, ← List.map_take, List.map_map]
      rfl
    rw [h1]
    have h2 := hmono.take (pollLen samples)
    rw [List.chain'_map]
    exact List.Chain'.imp (fun a b hab => Nat.div_le_div_right hab) h2

/-- Witness for C5: four samples, equality first reached at index 2. -/
theorem download_progress_spec_witness :
    poll_progress [(0, 3000), (1500, 3000), (3000, 3000), (9999, 3000)] =
      ([(0, 3000), (1500, 3000), (3000, 3000), (9999, 3000)].take 3).map
        (fun s => (s.1 / 1000, s.2 / 1000)) :=
  (download_progress_spec [(0, 3000), (1500, 3000), (3000, 3000), (9999, 3000)]).1 2
    (by decide)

theorem mode750_owner : modeOwner 0o750 = 7 := by decide

theorem mode750_group : modeGroup 0o750 = 5 := by decide

theorem mode750_world : modeWorld 0o750 = 0 := by decide

/-- C6 counterexample: the claim reads the permission bits as owner and
group read-execute-write, but a successful `move_exe` install leaves the
destination with mode `0o750`: the group triple is 5 (read-execute), with
no group write. -/
theorem install_mode_counterexample :
    move_exe [("src", ⟨[1, 2, 3], 0o644⟩)] "src" "dest" =
      Except.ok [("dest", ⟨[1, 2, 3], 0o750⟩)] ∧
    modeGroupWrite 0o750 = false ∧ modeGroup 0o750 = 5 := by
  decide

/-- C6 (amended): every successful install — the None-archive `move_exe`
path and the Tar single-member extraction — leaves the destination file
with mode `0o750`: owner read-write-execute, group read-execute, no world
access. -/
theorem install_mode_0750 :
    (∀ (fs : FS) (src dest : Path) (fs2 : FS),
      move_exe fs src dest = Except.ok fs2 →
      ∃ f, FS.lookup fs2 dest = Option.some f ∧ f.mode = 0o750 ∧
        modeOwner f.mode = 7 ∧ modeGroup f.mode = 5 ∧ modeWorld f.mode = 0) ∧
    (∀ (entries : List TarEntry) (inputs : List String) (fs : FS) (dest : Path) (fs2 : FS),
      Archived.install_tar entries inputs fs dest = Except.ok fs2 →
      ∃ f, FS.lookup fs2 dest = Option.some f ∧ f.mode = 0o750 ∧
        modeOwner f.mode = 7 ∧ modeGroup f.mode = 5 ∧ modeWorld f.mode = 0) := by
  constructor
  · intro fs src dest fs2 h
    cases hs : FS.lookup fs src with
    | none => simp [move_exe, hs] at h
    | some f =>
      cases hr : FS.removeFile (FS.set fs dest f) src with
      | error e => simp [move_exe, hs, hr] at h
      | ok fsr =>
        cases hd : FS.lookup fsr dest with
        | none => simp [move_exe, hs, hr, hd] at h
        | some g =>
          simp only [move_exe, hs, hr, hd, Except.ok.injEq] at h
          subst h
          exact ⟨{ g with mode := 0o750 }, aget_aset_self fsr dest _, rfl,
            mode750_owner, mode750_group, mode750_world⟩
  · intro entries inputs fs dest fs2 h
    cases ha : Context.ask_number 0 entries.length inputs with
    | none => simp [Archived.install_tar, ha] at h
    | some pick =>
      have hlt : pick < entries.length := (ask_number_bounds _ _ _ _ ha).2
      simp only [Archived.install_tar, ha, List.get?_eq_get hlt, Except.ok.injEq] at h
      subst h
      exact ⟨_, aget_aset_self fs dest _, rfl, mode750_owner, mode750_group, mode750_world⟩

/-- Witness for the amended C6: a concrete `move_exe` run and a concrete
one-entry tar extraction both leave mode `0o750` at the destination. -/
theorem install_mode_0750_witness :
    (∃ f, FS.lookup [("dest", ⟨[1, 2, 3], 0o750⟩)] "dest" = Option.some f ∧
      f.mode = 0o750 ∧ modeOwner f.mode = 7 ∧ modeGroup f.mode = 5 ∧
      modeWorld f.mode = 0) ∧
    (∃ f, FS.lookup [("dest", ⟨[7], 0o750⟩)] "dest" = Option.some f ∧
      f.mode = 0o750 ∧ modeOwner f.mode = 7 ∧ modeGroup f.mode = 5 ∧
      modeWorld f.mode = 0) :=
  ⟨install_mode_0750.1 [("src", ⟨[1, 2, 3], 0o644⟩)] "src" "dest" _ (by decide),
   install_mode_0750.2 [⟨"a", 1, [7]⟩] ["0"] [] "dest" _ (by decide)⟩

/-- C9: a GitHub-origin package whose resolved latest tag equals the
recorded version tag is returned by `Package::update` unchanged — url,
release and `last_update` included — with an empty effect trace: the
install pipeline (and hence the download) never runs. -/
theorem github_uptodate_noop (w : World) (pkg : Package) (repo current : String)
    (rel : GhRelease)
    (hg : pkg.github = Option.some repo)
    (hr : pkg.release = Option.some (Release.Version current))
    (hl : w.latest repo = Except.ok rel)
    (ht : rel.tag_name = Option.some current) :
    Package.update w pkg = Except.ok (pkg, []) := by
  simp [Package.update, hg, hr, hl, Package.github_tag_name, ht]

/-- Witness for C9 with a concrete world whose latest release carries the
already-installed tag. -/
theorem github_uptodate_noop_witness :
    Package.update
      ⟨fun _ => Except.ok ⟨Option.some "v1", []⟩, fun p => Except.ok p, 99, []⟩
      ⟨"x", ⟨"u", "/bin/x", Option.none, Option.none, Option.none⟩,
        Option.some (Release.Version "v1"), Option.some 5, Option.some "o/r"⟩ =
      Except.ok
        (⟨"x", ⟨"u", "/bin/x", Option.none, Option.none, Option.none⟩,
          Option.some (Release.Version "v1"), Option.some 5, Option.some "o/r"⟩, []) :=
  github_uptodate_noop _ _ "o/r" "v1" ⟨Option.some "v1", []⟩ rfl rfl rfl rfl

/-! ## Bulk-update merge lemmas -/

theorem findByName_merge (packages : List Package) (u : Package)
    (hu : (packages.map Package.name).Nodup)
    (hmem : u.name ∈ packages.map Package.name) :
    ∀ n, findByName (merge_updated packages u) n =
      if u.name = n then Option.some u else findByName packages n := by
  induction packages with
  | nil => simp at hmem
  | cons p rest ih =>
    intro n
    by_cases hpu : p.name = u.name
    · have hb : Package.eq p u = true := by simp [Package.eq, hpu]
      have hnotin : u.name ∉ rest.map Package.name := by
        rw [← hpu]
        exact (List.nodup_cons.mp hu).1
      simp only [merge_updated, hb, if_true]
      by_cases hn : u.name = n
      · subst hn
        rw [if_pos rfl]
        unfold findByName
        rw [List.find?_append]
        have hrest : rest.find? (fun q => q.name == u.name) = Option.none :=
          List.find?_eq_none.mpr (fun q hq hbq =>
            hnotin (List.mem_map.mpr ⟨q, hq, beq_iff_eq.mp hbq⟩))
        rw [hrest, List.find?_cons_of_pos [] (by simp)]
        rfl
      · rw [if_neg hn]
        unfold findByName
        rw [List.find?_append]
        have hone : List.find? (fun q => q.name == n) [u] = Option.none := by
          rw [List.find?_cons_of_neg [] (by simpa using hn)]
          rfl
        rw [hone, List.find?_cons_of_neg rest (by simp [hpu]; exact fun h => hn (hpu ▸ h))]
        cases rest.find? (fun q => q.name == n) <;> rfl
    · have hb : Package.eq p u = false := by simp [Package.eq, hpu]
      have hmem' : u.name ∈ rest.map Package.name := by
        rcases List.mem_cons.mp hmem with h | h
        · exact absurd h.symm hpu
        · exact h
      have ih' := ih (List.nodup_cons.mp hu).2 hmem'
      have hmerge : merge_updated (p :: rest) u = p :: merge_updated rest u := by
        simp [merge_updated, hb]
      rw [hmerge]
      by_cases hpn : (p.name == n) = true
      · have hun : ¬ u.name = n := fun h => hpu (by rw [beq_iff_eq.mp hpn, h])
        unfold findByName
        rw [if_neg hun, List.find?_cons_of_pos (p := fun (q : Package) => q.name == n) _ hpn,
          List.find?_cons_of_pos (p := fun (q : Package) => q.name == n) _ hpn]
      · unfold findByName
        rw [List.find?_cons_of_neg (p := fun (q : Package) => q.name == n) _ (by simpa using hpn),
          List.find?_cons_of_neg (p := fun (q : Package) => q.name == n) _ (by simpa using hpn)]
        exact ih' n

theorem merge_names_perm (packages : List Package) (u : Package)
    (hmem : u.name ∈ packages.map Package.name) :
    ((merge_updated packages u).map Package.name).Perm (packages.map Package.name) := by
  induction packages with
  | nil => simp at hmem
  | cons p rest ih =>
    by_cases hpu : Package.eq p u
    · simp only [merge_updated, hpu, if_true, List.map_append, List.map_cons]
      have hname : u.name = p.name := (beq_iff_eq.mp (by simpa [Package.eq] using hpu)).symm
      calc (rest.map Package.name ++ [u].map Package.name).Perm
            (u.name :: rest.map Package.name) := List.perm_append_singleton _ _
        _ = p.name :: rest.map Package.name := by rw [hname]
    · have hb : Package.eq p u = false := by simpa using hpu
      have hmem' : u.name ∈ rest.map Package.name := by
        rcases List.mem_cons.mp hmem with h | h
        · exact absurd (beq_iff_eq.mpr h.symm) (by simpa [Package.eq] using hpu)
        · exact h
      have hmerge : merge_updated (p :: rest) u = p :: merge_updated rest u := by
        simp [merge_updated, hb]
      rw [hmerge, List.map_cons, List.map_cons]
      exact (ih hmem').cons p.name

/-- The registry lookup of a present package under unique names. -/
theorem findByName_self (packages : List Package)
    (hu : (packages.map Package.name).Nodup) (p : Package) (hp : p ∈ packages) :
    findByName packages p.name = Option.some p := by
  induction packages with
  | nil => cases hp
  | cons q rest ih =>
    rcases List.mem_cons.mp hp with h | h
    · subst h
      unfold findByName
      rw [List.find?_cons_of_pos _ (by simp)]
    · have hqp : ¬ (q.name == p.name) = true := by
        simp only [beq_iff_eq]
        intro hqn
        exact (List.nodup_cons.mp hu).1 (hqn ▸ List.mem_map.mpr ⟨p, h, rfl⟩)
      unfold findByName
      rw [List.find?_cons_of_neg (p := fun (x : Package) => x.name == p.name) _ hqp]
      exact ih (List.nodup_cons.mp hu).2 h

theorem merge_results_eq (packages : List Package)
    (results : List (Except String Package)) :
    merge_results packages results =
      (results.filterMap Except.toOption).foldl merge_updated packages := by
  induction results generalizing packages with
  | nil => rfl
  | cons r rest ih =>
    cases r with
    | ok u =>
      have h2 : (Except.ok u :: rest).filterMap Except.toOption =
          u :: rest.filterMap Except.toOption := rfl
      rw [h2, List.foldl_cons]
      exact ih (merge_updated packages u)
    | error e =>
      have h2 : (Except.error e :: rest).filterMap Except.toOption =
          rest.filterMap Except.toOption := rfl
      rw [h2]
      exact ih packages

theorem fold_merge_find (us : List Package) :
    ∀ l : List Package, (l.map Package.name).Nodup →
      (us.map Package.name).Nodup →
      (∀ u ∈ us, u.name ∈ l.map Package.name) →
      ∀ n, findByName (us.foldl merge_updated l) n =
        match us.find? (fun u => u.name == n) with
        | Option.some u => Option.some u
        | Option.none => findByName l n := by
  induction us with
  | nil =>
    intro l _ _ _ n
    rfl
  | cons u rest ih =>
    intro l hl hus hnames n
    have hmem : u.name ∈ l.map Package.name := hnames u (List.mem_cons_self u rest)
    have hperm := merge_names_perm l u hmem
    have hl' : ((merge_updated l u).map Package.name).Nodup := hperm.nodup_iff.mpr hl
    have hnames' : ∀ v ∈ rest, v.name ∈ (merge_updated l u).map Package.name :=
      fun v hv => (hperm.mem_iff).mpr (hnames v (List.mem_cons_of_mem u hv))
    have hus' := (List.nodup_cons.mp hus).2
    have hu_notin : u.name ∉ rest.map Package.name := (List.nodup_cons.mp hus).1
    rw [List.foldl_cons, ih (merge_updated l u) hl' hus' hnames' n]
    by_cases hn : u.name = n
    · subst hn
      have hrest_none : rest.find? (fun v => v.name == u.name) = Option.none :=
        List.find?_eq_none.mpr (fun v hv hb =>
          hu_notin (List.mem_map.mpr ⟨v, hv, beq_iff_eq.mp hb⟩))
      rw [hrest_none, List.find?_cons_of_pos _ (by simp),
        findByName_merge l u hl hmem u.name, if_pos rfl]
    · rw [List.find?_cons_of_neg _ (by simpa using hn)]
      cases hf : rest.find? (fun v => v.name == n) with
      | some v => rfl
      | none => rw [findByName_merge l u hl hmem n, if_neg hn]

theorem successes_names_sublist (worker : Package → Except String Package)
    (hname : ∀ p q, worker p = Except.ok q → q.name = p.name) :
    ∀ ps : List Package,
      ((ps.filterMap (fun r => (worker r).toOption)).map Package.name).Sublist
        (ps.map Package.name) := by
  intro ps
  induction ps with
  | nil => simp
  | cons h t ih =>
    cases hw : worker h with
    | error e =>
      rw [List.filterMap_cons]
      simp only [hw, Except.toOption, List.map_cons]
      exact ih.cons h.name
    | ok q =>
      rw [List.filterMap_cons]
      simp only [hw, Except.toOption, List.map_cons]
      rw [hname h q hw]
      exact ih.cons₂ h.name

theorem mem_successes (worker : Package → Except String Package)
    (hname : ∀ p q, worker p = Except.ok q → q.name = p.name)
    (ps : List Package) (u : Package)
    (hu : u ∈ ps.filterMap (fun r => (worker r).toOption)) :
    ∃ r ∈ ps, worker r = Except.ok u ∧ u.name = r.name := by
  obtain ⟨r, hr, hru⟩ := List.mem_filterMap.mp hu
  cases hw : worker r with
  | error e =>
    rw [hw] at hru
    simp [Except.toOption] at hru
  | ok v =>
    rw [hw] at hru
    simp only [Except.toOption, Option.some.injEq] at hru
    subst hru
    exact ⟨r, hr, hw, hname r v hw⟩

theorem find_success (worker : Package → Except String Package)
    (requested : List String)
    (hname : ∀ p q, worker p = Except.ok q → q.name = p.name) :
    ∀ ps : List Package, (ps.map Package.name).Nodup →
      ∀ p ∈ ps, selected requested p = true → ∀ q, worker p = Except.ok q →
      ((ps.filter (selected requested)).filterMap
          (fun r => (worker r).toOption)).find? (fun v => v.name == p.name) =
        Option.some q := by
  intro ps
  induction ps with
  | nil =>
    intro _ p hp
    cases hp
  | cons h t ih =>
    intro hnodup p hp hsel q hq
    rcases List.mem_cons.mp hp with hph | hpt
    · subst hph
      rw [List.filter_cons, if_pos hsel, List.filterMap_cons]
      simp only [hq, Except.toOption]
      rw [List.find?_cons_of_pos _ (by simp [hname p q hq])]
    · have hhp : ¬ h.name = p.name := by
        intro hn
        exact (List.nodup_cons.mp hnodup).1 (hn ▸ List.mem_map.mpr ⟨p, hpt, rfl⟩)
      have iht := ih (List.nodup_cons.mp hnodup).2 p hpt hsel q hq
      rw [List.filter_cons]
      by_cases hselh : selected requested h = true
      · rw [if_pos hselh, List.filterMap_cons]
        cases hw : worker h with
        | error e =>
          simp only [hw, Except.toOption]
          exact iht
        | ok v =>
          simp only [hw, Except.toOption]
          rw [List.find?_cons_of_neg _ (by simp [hname h v hw]; exact hhp)]
          exact iht
      · rw [if_neg hselh]
        exact iht

theorem find_success_none (worker : Package → Except String Package)
    (requested : List String)
    (hname : ∀ p q, worker p = Except.ok q → q.name = p.name)
    (ps : List Package) (hnodup : (ps.map Package.name).Nodup)
    (p : Package) (hp : p ∈ ps)
    (hfail : selected requested p = false ∨ (worker p).toOption = Option.none) :
    ((ps.filter (selected requested)).filterMap
        (fun r => (worker r).toOption)).find? (fun v => v.name == p.name) =
      Option.none := by
  apply List.find?_eq_none.mpr
  intro u hu hb
  obtain ⟨r, hr, hw, hun⟩ :=
    mem_successes worker hname (ps.filter (selected requested)) u hu
  have hr_mem : r ∈ ps := List.mem_of_mem_filter hr
  have hr_sel : selected requested r = true := List.of_mem_filter hr
  have hrp : r = p :=
    List.inj_on_of_nodup_map hnodup hr_mem hp (by rw [← hun]; exact beq_iff_eq.mp hb)
  subst hrp
  rcases hfail with hsel | hnone
  · rw [hr_sel] at hsel
    cases hsel
  · rw [hw] at hnone
    simp [Except.toOption] at hnone

/-- C4: after a bulk update over any registry with unique names and any
requested set, a selected package whose worker succeeded has the registry
entry bearing its name replaced by the worker's new package (matching is
by name only), while a package that was not selected or whose worker
failed keeps its original entry unchanged. -/
theorem bulk_update_merge (packages : List Package) (requested : List String)
    (worker : Package → Except String Package)
    (hnodup : (packages.map Package.name).Nodup)
    (hname : ∀ p q, worker p = Except.ok q → q.name = p.name) :
    ∀ p ∈ packages,
      (∀ q, selected requested p = true → worker p = Except.ok q →
        findByName (BSPM.update packages requested worker) p.name = Option.some q) ∧
      ((selected requested p = false ∨ (worker p).toOption = Option.none) →
        findByName (BSPM.update packages requested worker) p.name = Option.some p) := by
  intro p hp
  have hne : packages.isEmpty = false := by
    cases packages
    · cases hp
    · rfl
  have hfilter_nodup : ((packages.filter (selected requested)).map Package.name).Nodup :=
    (((List.filter_sublist packages).map Package.name).nodup hnodup)
  have hus_nodup : (((packages.filter (selected requested)).filterMap
      (fun r => (worker r).toOption)).map Package.name).Nodup :=
    ((successes_names_sublist worker hname _).nodup hfilter_nodup)
  have hus_names : ∀ u ∈ (packages.filter (selected requested)).filterMap
      (fun r => (worker r).toOption), u.name ∈ packages.map Package.name := by
    intro u hu
    obtain ⟨r, hr, _, hun⟩ := mem_successes worker hname _ u hu
    exact hun ▸ List.mem_map.mpr ⟨r, List.mem_of_mem_filter hr, rfl⟩
  have hupdate : BSPM.update packages requested worker =
      ((packages.filter (selected requested)).filterMap
        (fun r => (worker r).toOption)).foldl merge_updated packages := by
    unfold BSPM.update
    rw [if_neg (by simp [hne]), merge_results_eq]
    congr 1
    rw [List.filterMap_map]
    rfl
  have hfold := fold_merge_find
    ((packages.filter (selected requested)).filterMap (fun r => (worker r).toOption))
    packages hnodup hus_nodup hus_names p.name
  constructor
  · intro q hsel hq
    rw [hupdate, hfold,
      find_success worker requested hname packages hnodup p hp hsel q hq]
  · intro hfail
    rw [hupdate, hfold,
      find_success_none worker requested hname packages hnodup p hp hfail]
    exact findByName_self packages hnodup p hp

/-- Witness for C4, mirroring the spec §8 scenario: `X` fails, `Y`
succeeds, the empty requested set selects both; `Y`'s entry is replaced
and `X`'s entry survives unchanged. -/
theorem bulk_update_merge_witness :
    findByName (BSPM.update [pkgX, pkgY] [] workerW) "Y" =
      Option.some { pkgY with last_update := Option.some 9 } ∧
    findByName (BSPM.update [pkgX, pkgY] [] workerW) "X" = Option.some pkgX := by
  have hname : ∀ p q, workerW p = Except.ok q → q.name = p.name := by
    intro p q hq
    by_cases hp : (p.name == "Y") = true
    · unfold workerW at hq
      rw [if_pos hp] at hq
      cases hq
      rfl
    · unfold workerW at hq
      rw [if_neg hp] at hq
      cases hq
  have h := bulk_update_merge [pkgX, pkgY] [] workerW (by decide) hname
  constructor
  · exact (h pkgY (by decide)).1 { pkgY with last_update := Option.some 9 }
      (by decide) (by decide)
  · exact (h pkgX (by decide)).2 (Or.inr (by decide))

end Blindspot
